import Mathlib

/-!
Verification of the data-loading library in `mlpython/misc/io.py`
(LIBSVM line/file parser, field-sliced row iterator, in-memory dataset
materializer).

The Python code is shallowly embedded: text is `List Char`, NumPy 1-D
buffers are Lean lists, fallible operations return `Option`, and NumPy
integer indexing (including the negative-index wrap) is modelled
explicitly.  Python `float` values are modelled as `ℚ`: the parser below
covers the decimal/exponent syntax exercised by the library (the claims
never depend on binary rounding, only on the parse being a function of
the string).
-/

/-- Whitespace characters recognised by Python's `str.split()`. -/
def pyIsSpace (c : Char) : Bool :=
  c = ' ' || c = '\t' || c = '\n' || c = '\r' || c = '\x0b' || c = '\x0c'

/-- Split a character list at every separator satisfying `p`, keeping empty
groups, as Python `str.split(sep)` does. -/
def splitP (p : Char → Bool) : List Char → List (List Char)
  | [] => [[]]
  | c :: cs =>
    if p c then [] :: splitP p cs
    else
      match splitP p cs with
      | g :: gs => (c :: g) :: gs
      | [] => [[c]]

/-- Python `line.strip().split()`: whitespace-delimited tokens, empties
dropped (`strip` is absorbed because `split()` already discards empty
groups at either end). -/
def wsTokens (cs : List Char) : List (List Char) :=
  (splitP pyIsSpace cs).filter (fun t => !t.isEmpty)

/-- Python `token.split(c)` (splits at every occurrence of `c`). -/
def splitChar (sep : Char) (cs : List Char) : List (List Char) :=
  splitP (fun c => c = sep) cs

/-- Python `token[:token.find(sep)]` when `sep` occurs: the part before the
first separator. -/
def preColon (t : List Char) : List Char :=
  t.takeWhile (fun c => c ≠ ':')

/-- Python `token.find(':') >= 0`. -/
def hasColon (t : List Char) : Bool :=
  t.any (fun c => c = ':')

/-- Python 2 `str.isdigit`: nonempty and all ASCII digits. -/
def pyIsdigit (t : List Char) : Bool :=
  !t.isEmpty && t.all Char.isDigit

/-- Value of `int(s)` for an all-digit string `s`. -/
def digitsToNat (t : List Char) : ℕ :=
  t.foldl (fun n c => 10 * n + (c.toNat - 48)) 0

/-- NumPy 1-D element assignment `a[i] = v` for an integer index `i`:
a negative index wraps once by the length, anything still out of range
is an `IndexError` (`none`). -/
def npSet {α : Type} (l : List α) (i : ℤ) (v : α) : Option (List α) :=
  let n : ℤ := l.length
  let j : ℤ := if i < 0 then i + n else i
  if 0 ≤ j ∧ j < n then some (l.set j.toNat v) else none

/-- Python builtin `max` over a 1-D integer array: error on an empty array. -/
def pyMax (l : List ℕ) : Option ℕ :=
  match l with
  | [] => none
  | x :: xs => some (xs.foldl Nat.max x)

/-- Mantissa (`digits`, `digits.digits`, `.digits`, `digits.`) of a Python
float literal: integer part, fractional part, number of fractional
digits, and the unconsumed rest. -/
def parseMantissa (cs : List Char) : Option (ℕ × ℕ × ℕ × List Char) :=
  let d1 := cs.takeWhile Char.isDigit
  let r1 := cs.dropWhile Char.isDigit
  match r1 with
  | '.' :: r2 =>
    let d2 := r2.takeWhile Char.isDigit
    let r3 := r2.dropWhile Char.isDigit
    if d1.isEmpty && d2.isEmpty then none
    else some (digitsToNat d1, digitsToNat d2, d2.length, r3)
  | _ => if d1.isEmpty then none else some (digitsToNat d1, 0, 0, r1)

/-- Digits of the exponent part of a Python float literal. -/
def expDigits (pos : Bool) (ds : List Char) : Option (Bool × ℕ) :=
  if ds.isEmpty || !ds.all Char.isDigit then none
  else some (pos, digitsToNat ds)

/-- Optional exponent suffix (after the mantissa) of a Python float
literal: sign and magnitude, `(true, 0)` when absent. -/
def parseExpSuffix : List Char → Option (Bool × ℕ)
  | [] => some (true, 0)
  | 'e' :: '+' :: ds => expDigits true ds
  | 'e' :: '-' :: ds => expDigits false ds
  | 'e' :: ds => expDigits true ds
  | 'E' :: '+' :: ds => expDigits true ds
  | 'E' :: '-' :: ds => expDigits false ds
  | 'E' :: ds => expDigits true ds
  | _ => none

/-- The exact rational value `±(ipart.fpart) × 10^(±emag)` of a decimal
literal, built with a single normalizing constructor so that it is
kernel-computable. -/
def decimalValue (neg : Bool) (ipart fpart fraclen : ℕ) (epos : Bool)
    (emag : ℕ) : ℚ :=
  let num : ℕ := (ipart * 10 ^ fraclen + fpart) * (if epos then 10 ^ emag else 1)
  let den : ℕ := 10 ^ fraclen * (if epos then 1 else 10 ^ emag)
  mkRat (if neg then -(num : ℤ) else (num : ℤ)) den

/-- Unsigned Python float literal. -/
def parsePos (neg : Bool) (cs : List Char) : Option ℚ :=
  match parseMantissa cs with
  | none => none
  | some (ipart, fpart, fraclen, r) =>
    match parseExpSuffix r with
    | none => none
    | some (epos, emag) => some (decimalValue neg ipart fpart fraclen epos emag)

/-- Python `float(s)` on the decimal/exponent syntax used by the library
(`inf`/`nan` and surrounding whitespace are not exercised by the code
under verification); the value is exact, as a rational.  A failure
models the `ValueError` Python raises. -/
def parseFloat (cs : List Char) : Option ℚ :=
  match cs with
  | '+' :: rest => parsePos false rest
  | '-' :: rest => parsePos true rest
  | _ => parsePos false cs

/-! ### LIBSVM line parser (`libsvm_load_line`) -/

/-- The input field of a parsed libsvm example: either the `(values,
indices)` pair of the sparse mode or the dense vector. -/
inductive LibsvmInput : Type where
  | sparse (values : List ℚ) (indices : List ℕ)
  | dense (vec : List ℚ)
deriving DecidableEq

/-- A parsed libsvm example `[input, target, extra...]` (the list returned
by `libsvm_load_line`, with its fixed head structure made explicit). -/
structure LibsvmExample (τ ε : Type) : Type where
  input : LibsvmInput
  target : τ
  extra : List ε
deriving DecidableEq

/-- Token classified for removal by the first loop of `libsvm_load_line`:
it contains `:`, the part before the first `:` is all digits, and its
integer value is `< 1` (i.e. `0`). -/
def removeTok (t : List Char) : Bool :=
  hasColon t && pyIsdigit (preColon t) && (digitsToNat (preColon t) == 0)

/-- Token counted into `n_feat` by the first loop of `libsvm_load_line`:
it contains `:`, the part before the first `:` is all digits, and its
integer value is `≥ 1`.  Note the loop runs over *all* tokens of the
line, including the first (target) token. -/
def featTok (t : List Char) : Bool :=
  hasColon t && pyIsdigit (preColon t) && (digitsToNat (preColon t) != 0)

/-- `n_feat` computed by the first loop of `libsvm_load_line`, over all
tokens of the line. -/
def featCount (line : String) : ℕ :=
  (wsTokens line.data).countP featTok

/-- Sparse-mode fill loop of `libsvm_load_line` over `tokens[1:]`: each
token is split at `:` into exactly two parts (else `ValueError`), digit
ids write `indices[i]` and `inputs[i]`, other ids are converted and
appended to `extra`. -/
def fillSparse {ε : Type} (cnd : List Char → List Char → ε) :
    List (List Char) → ℕ → List ℚ → List ℕ → List ε →
    Option (List ℚ × List ℕ × List ε)
  | [], _, vals, idxs, extra => some (vals, idxs, extra)
  | t :: ts, i, vals, idxs, extra =>
    match splitChar ':' t with
    | [id_str, val_str] =>
      if pyIsdigit id_str then
        match npSet idxs (i : ℤ) (digitsToNat id_str) with
        | none => none
        | some idxs2 =>
          match parseFloat val_str with
          | none => none
          | some v =>
            match npSet vals (i : ℤ) v with
            | none => none
            | some vals2 => fillSparse cnd ts (i + 1) vals2 idxs2 extra
      else fillSparse cnd ts i vals idxs (extra ++ [cnd id_str val_str])
    | _ => none

/-- Dense-mode fill loop of `libsvm_load_line` over `tokens[1:]`: digit
ids write `input[int(id) - 1]` (NumPy indexing), other ids are converted
and appended to `extra`. -/
def fillDense {ε : Type} (cnd : List Char → List Char → ε) :
    List (List Char) → List ℚ → List ε → Option (List ℚ × List ε)
  | [], vec, extra => some (vec, extra)
  | t :: ts, vec, extra =>
    match splitChar ':' t with
    | [id_str, val_str] =>
      if pyIsdigit id_str then
        match parseFloat val_str with
        | none => none
        | some v =>
          match npSet vec ((digitsToNat id_str : ℤ) - 1) v with
          | none => none
          | some vec2 => fillDense cnd ts vec2 extra
      else fillDense cnd ts vec (extra ++ [cnd id_str val_str])
    | _ => none

/-- Body of `libsvm_load_line` after tokenization: remove the `< 1`
feature ids, count `n_feat` over all original tokens, allocate the
output buffers (`np.zeros` fails on a negative size), run the fill loop
over `tokens[1:]`, and assemble `[input, convert_target(tokens[0])] +
extra`.  An empty token list is the `IndexError` on `tokens[0]`. -/
def libsvmLineToks {ε τ : Type} (cnd : List Char → List Char → ε)
    (ct : List Char → τ) (sparse : Bool) (input_size : ℤ)
    (tokens : List (List Char)) : Option (LibsvmExample τ ε) :=
  let toks := tokens.filter (fun t => !removeTok t)
  let n_feat := tokens.countP featTok
  match toks with
  | [] => none
  | t0 :: rest =>
    if sparse then
      match fillSparse cnd rest 0 (List.replicate n_feat 0)
          (List.replicate n_feat 0) [] with
      | none => none
      | some (vals, idxs, extra) => some ⟨.sparse vals idxs, ct t0, extra⟩
    else
      if input_size < 0 then none
      else
        match fillDense cnd rest (List.replicate input_size.toNat 0) [] with
        | none => none
        | some (vec, extra) => some ⟨.dense vec, ct t0, extra⟩

/-- `libsvm_load_line(line, convert_non_digit_features, convert_target,
sparse, input_size)`. -/
def libsvm_load_line {ε τ : Type} (line : String)
    (cnd : List Char → List Char → ε) (ct : List Char → τ)
    (sparse : Bool) (input_size : ℤ) : Option (LibsvmExample τ ε) :=
  libsvmLineToks cnd ct sparse input_size (wsTokens line.data)

/-! ### LIBSVM file loader (`libsvm_load`) -/

/-- Metadata dictionary returned by `libsvm_load`. -/
structure LibsvmMeta (τ : Type) [DecidableEq τ] : Type where
  targets : Finset τ
  input_size : ℤ

instance {τ : Type} [DecidableEq τ] : DecidableEq (LibsvmMeta τ) :=
  fun a b =>
    if h : a.targets = b.targets ∧ a.input_size = b.input_size then
      isTrue (by cases a; cases b; cases h.1; cases h.2; rfl)
    else
      isFalse (by intro e; cases e; exact h ⟨rfl, rfl⟩)

/-- `example[0][1]` on a sparse example: the indices vector. -/
def sparseIndices {τ ε : Type} (ex : LibsvmExample τ ε) : Option (List ℕ) :=
  match ex.input with
  | .sparse _ idxs => some idxs
  | .dense _ => none

/-- First pass of `libsvm_load`: parse every line in sparse mode, take the
max of each line's indices (error on an empty indices vector), enlarge
`input_size` only when the caller supplied none, accumulate targets, and
keep the examples only in sparse mode. -/
def loadPass1 {ε τ : Type} [DecidableEq τ] (cnd : List Char → List Char → ε)
    (ct : List Char → τ) (sp : Bool) :
    List String → ℤ → Option ℤ → Finset τ → List (LibsvmExample τ ε) →
    Option (ℤ × Finset τ × List (LibsvmExample τ ε))
  | [], isz, _, tg, dt => some (isz, tg, dt)
  | line :: ls, isz, given, tg, dt =>
    match libsvm_load_line line cnd ct true (-1) with
    | none => none
    | some ex =>
      match sparseIndices ex with
      | none => none
      | some idxs =>
        match pyMax idxs with
        | none => none
        | some m =>
          loadPass1 cnd ct sp ls
            (if given = none ∧ (m : ℤ) > isz then (m : ℤ) else isz) given
            (insert ex.target tg) (if sp then dt ++ [ex] else dt)

/-- Second pass of `libsvm_load` (dense mode only): re-parse every line in
dense mode with the now-known `input_size`. -/
def loadPass2 {ε τ : Type} (cnd : List Char → List Char → ε)
    (ct : List Char → τ) (isz : ℤ) :
    List String → List (LibsvmExample τ ε) → Option (List (LibsvmExample τ ε))
  | [], dt => some dt
  | line :: ls, dt =>
    match libsvm_load_line line cnd ct false isz with
    | none => none
    | some ex => loadPass2 cnd ct isz ls (dt ++ [ex])

/-- `libsvm_load(filename, ...)` with the file contents given as its list
of lines. -/
def libsvm_load {ε τ : Type} [DecidableEq τ] (lines : List String)
    (cnd : List Char → List Char → ε) (ct : List Char → τ)
    (sparse : Bool) (input_size : Option ℤ) :
    Option (List (LibsvmExample τ ε) × LibsvmMeta τ) :=
  let isz0 : ℤ := match input_size with | none => 0 | some s => s
  match loadPass1 cnd ct sparse lines isz0 input_size ∅ [] with
  | none => none
  | some (isz, targets, dt) =>
    if sparse then some (dt, ⟨targets, isz⟩)
    else
      match loadPass2 cnd ct isz lines dt with
      | none => none
      | some dt2 => some (dt2, ⟨targets, isz⟩)

/-- Parse every line of a file in sparse mode (`map` of
`libsvm_load_line` over the lines, failing if any line fails). -/
def parseLinesSparse {ε τ : Type} (cnd : List Char → List Char → ε)
    (ct : List Char → τ) : List String → Option (List (LibsvmExample τ ε))
  | [] => some []
  | l :: ls =>
    match libsvm_load_line l cnd ct true (-1) with
    | none => none
    | some ex =>
      match parseLinesSparse cnd ct ls with
      | none => none
      | some exs => some (ex :: exs)

/-- Reconstruction operator named by the spec: scatter the sparse
`(values, indices)` pair into a zero vector of length `n` at positions
`indices - 1`, in order. -/
def scatter (n : ℕ) (vals : List ℚ) (idxs : List ℕ) : List ℚ :=
  (vals.zip idxs).foldl (fun v p => v.set (p.2 - 1) p.1) (List.replicate n 0)

/-- Concrete non-digit-feature conversion used by witnesses: keep the
`(feature_str, value_str)` pair. -/
def pairConv : List Char → List Char → List Char × List Char :=
  fun a b => (a, b)

/-- Concrete target conversion used by witnesses: identity on the token. -/
def idConv : List Char → List Char := fun t => t

/-- Concrete target conversion to `String` (Python `str`). -/
def strConv : List Char → String := fun t => String.mk t

/-! ### Field-sliced row iterator (`IteratorWithFields`) -/

/-- Python slice `r[b:e]` on a 1-D buffer: endpoints are clamped to
`[0, len]` after wrapping negative endpoints once by the length; slicing
never raises. -/
def pySlice (l : List ℚ) (b e : ℤ) : List ℚ :=
  let n : ℤ := l.length
  let b2 : ℤ := if b < 0 then max (n + b) 0 else min b n
  let e2 : ℤ := if e < 0 then max (n + e) 0 else min e n
  (l.drop b2.toNat).take (e2 - b2).toNat

/-- Iteration of `IteratorWithFields(data, fields)`: for each row, the
list of slices `r[beg:end]` in descriptor order. -/
def iterWithFields (data : List (List ℚ)) (fields : List (ℤ × ℤ)) :
    List (List (List ℚ)) :=
  data.map (fun r => fields.map (fun p => pySlice r p.1 p.2))

/-! ### In-memory materializer (`MemoryDataset`)

NumPy values are modelled as a scalar or a shaped tensor with a flat
row-major element buffer; a Python-level example is either a single
NumPy value (single-field datasets) or a Python list of NumPy values
(multi-field datasets).  Buffer assignment `mem[i][t] = v` is modelled
for exactly matching shapes (the only case the library's contract
admits); a shape mismatch is an error, NumPy broadcasting of smaller
shapes is not exercised by the code under verification.  A dtype is
modelled as the element conversion it applies on assignment (the
identity when the example's element type matches the buffer's). -/

/-- A NumPy value: a scalar or an array of the given shape with a flat
row-major element buffer. -/
inductive NpArr : Type where
  | scalar (q : ℚ)
  | tensor (shape : List ℕ) (elems : List ℚ)
deriving DecidableEq

/-- A Python-level example object: a NumPy value or a Python list. -/
inductive PyObj : Type where
  | arrV (a : NpArr)
  | listV (l : List NpArr)
deriving DecidableEq

/-- The zero-initialized row cell of a field buffer: `np.zeros` gives a
scalar cell for the special shape `(1,)` (the buffer is 1-D) and a zero
tensor of the field shape otherwise. -/
def zeroCell (sh : List ℕ) : NpArr :=
  if sh = [1] then .scalar 0 else .tensor sh (List.replicate sh.prod 0)

/-- Assignment of value `v` into one row cell of a field buffer with
declared shape `sh` and dtype conversion `dt`. -/
def assignField (dt : ℚ → ℚ) (sh : List ℕ) (v : NpArr) : Option NpArr :=
  if sh = [1] then
    match v with
    | .scalar q => some (.scalar (dt q))
    | .tensor _ _ => none
  else
    match v with
    | .tensor sh2 es =>
      if sh2 = sh ∧ es.length = sh.prod then some (.tensor sh (es.map dt))
      else none
    | .scalar _ => none

/-- Python `example[i]` for a multi-field example. -/
def pyIndex (ex : PyObj) (i : ℕ) : Option NpArr :=
  match ex with
  | .listV l => l[i]?
  | .arrV _ => none

/-- Buffer allocation loop of `MemoryDataset.__init__`: one zeroed buffer
of `length` rows per field shape; accessing `dtypes[i]` past the end of
the dtype list is an `IndexError`. -/
def allocBufs : List (List ℕ) → List (ℚ → ℚ) → ℕ → Option (List (List NpArr))
  | [], _, _ => some []
  | sh :: shs, _ :: dts, len =>
    match allocBufs shs dts len with
    | none => none
    | some rest => some (List.replicate len (zeroCell sh) :: rest)
  | _ :: _, [], _ => none

/-- Single-field copy loop of `MemoryDataset.__init__`:
`mem_data[0][t] = example` for each example in order. -/
def copySingle (dt : ℚ → ℚ) (sh : List ℕ) :
    List PyObj → ℕ → List NpArr → Option (List NpArr)
  | [], _, buf => some buf
  | ex :: exs, t, buf =>
    match ex with
    | .arrV a =>
      match assignField dt sh a with
      | none => none
      | some cell =>
        match npSet buf (t : ℤ) cell with
        | none => none
        | some buf2 => copySingle dt sh exs (t + 1) buf2
    | .listV _ => none

/-- Inner multi-field copy loop: `mem_data[i][t] = example[i]` for each
field `i` in order. -/
def copyFields (ex : PyObj) (t : ℕ) :
    ℕ → List (List ℕ × (ℚ → ℚ)) → List (List NpArr) →
    Option (List (List NpArr))
  | _, [], [] => some []
  | i, (sh, dt) :: ps, buf :: bufs =>
    match pyIndex ex i with
    | none => none
    | some v =>
      match assignField dt sh v with
      | none => none
      | some cell =>
        match npSet buf (t : ℤ) cell with
        | none => none
        | some buf2 =>
          match copyFields ex t (i + 1) ps bufs with
          | none => none
          | some rest => some (buf2 :: rest)
  | _, _, _ => none

/-- Multi-field copy loop of `MemoryDataset.__init__` over the examples. -/
def copyMulti (pairs : List (List ℕ × (ℚ → ℚ))) :
    List PyObj → ℕ → List (List NpArr) → Option (List (List NpArr))
  | [], _, bufs => some bufs
  | ex :: exs, t, bufs =>
    match copyFields ex t 0 pairs bufs with
    | none => none
    | some bufs2 => copyMulti pairs exs (t + 1) bufs2

/-- The materialized state of a `MemoryDataset`: the per-field buffers,
the dataset length, and the field count. -/
structure MemDataset : Type where
  memData : List (List NpArr)
  len : ℕ
  nFields : ℕ
deriving DecidableEq

/-- `MemoryDataset(data, field_shapes, dtypes, length)`: count the length
if not given, allocate one zeroed buffer per field, then copy every
example in (single-field examples are the field value itself). -/
def memoryDatasetBuild (data : List PyObj) (fieldShapes : List (List ℕ))
    (dtypes : List (ℚ → ℚ)) (lengthOpt : Option ℕ) : Option MemDataset :=
  let nFields := fieldShapes.length
  let len := match lengthOpt with | none => data.length | some n => n
  match allocBufs fieldShapes dtypes len with
  | none => none
  | some bufs =>
    if nFields = 1 then
      match fieldShapes, dtypes, bufs with
      | [sh], dt :: _, [buf] =>
        match copySingle dt sh data 0 buf with
        | none => none
        | some buf2 => some ⟨[buf2], len, nFields⟩
      | _, _, _ => none
    else
      match copyMulti (fieldShapes.zip dtypes) data 0 bufs with
      | none => none
      | some bufs2 => some ⟨bufs2, len, nFields⟩

/-- `MemoryDataset.__iter__`: with one field, yield the rows of the single
buffer (scalar cells are yielded as scalars); otherwise yield, for `t`
in `range(length)`, the Python list of the per-field rows at `t`. -/
def MemDataset.iter (d : MemDataset) : List PyObj :=
  if d.nFields = 1 then (d.memData.headD []).map PyObj.arrV
  else
    (List.range d.len).map
      (fun t => .listV (d.memData.map (fun rows => rows.getD t (.scalar 0))))

/-- A field value matching a declared field shape with no conversion
needed: the special shape `(1,)` declares a non-array (scalar) field,
any other shape an array field of exactly that shape. -/
def fieldMatchB (sh : List ℕ) (v : NpArr) : Bool :=
  match v with
  | .scalar _ => sh == [1]
  | .tensor sh2 es => !(sh == [1]) && sh2 == sh && es.length == sh.prod

/-- An example matching a declared field-shape list: with one field the
example is the field value itself; with several it is an ordered list
with exactly one matching entry per field. -/
def exampleMatchB (shs : List (List ℕ)) (ex : PyObj) : Bool :=
  match shs, ex with
  | [sh], .arrV a => fieldMatchB sh a
  | _ :: _ :: _, .listV l =>
    l.length == shs.length && (shs.zip l).all (fun p => fieldMatchB p.1 p.2)
  | _, _ => false

/-! ### Helper lemmas about the NumPy primitives -/

theorem npSet_nat {α : Type} (l : List α) (i : ℕ) (v : α) :
    npSet l (i : ℤ) v = if i < l.length then some (l.set i v) else none := by
  unfold npSet
  have h0 : ¬((i : ℤ) < 0) := by omega
  simp only [h0, if_false]
  by_cases h : i < l.length
  · rw [if_pos, if_pos h]
    · simp
    · constructor
      · omega
      · exact_mod_cast h
  · rw [if_neg, if_neg h]
    intro hc
    exact h (by exact_mod_cast hc.2)

theorem npSet_nat_some {α : Type} (l : List α) (i : ℕ) (v : α)
    (h : i < l.length) : npSet l (i : ℤ) v = some (l.set i v) := by
  rw [npSet_nat, if_pos h]

theorem npSet_pred_some {α : Type} (l : List α) (d : ℕ) (v : α)
    (h1 : 1 ≤ d) (h2 : d ≤ l.length) :
    npSet l ((d : ℤ) - 1) v = some (l.set (d - 1) v) := by
  unfold npSet
  have hj : ¬((d : ℤ) - 1 < 0) := by omega
  simp only [hj, if_false]
  rw [if_pos]
  · congr 1
    congr 1
    omega
  · constructor
    · omega
    · omega

theorem npSet_pred_none {α : Type} (l : List α) (d : ℕ) (v : α)
    (h : l.length < d) : npSet l ((d : ℤ) - 1) v = none := by
  unfold npSet
  have hj : ¬((d : ℤ) - 1 < 0) := by omega
  simp only [hj, if_false]
  rw [if_neg]
  intro hc
  omega

theorem npSet_some_length {α : Type} {l l2 : List α} {i : ℤ} {v : α}
    (h : npSet l i v = some l2) : l2.length = l.length := by
  simp only [npSet] at h
  by_cases hi : i < 0
  · rw [if_pos hi] at h
    split at h
    · cases h
      exact List.length_set ..
    · cases h
  · rw [if_neg hi] at h
    split at h
    · cases h
      exact List.length_set ..
    · cases h

/-- Write the elements of `xs` into `l` at consecutive positions starting
at `i` (out-of-range writes are dropped, as `List.set` does; all uses
below stay in range). -/
def writeSeq {α : Type} : List α → ℕ → List α → List α
  | l, _, [] => l
  | l, i, x :: xs => writeSeq (l.set i x) (i + 1) xs

theorem writeSeq_length {α : Type} :
    ∀ (xs : List α) (l : List α) (i : ℕ), (writeSeq l i xs).length = l.length := by
  intro xs
  induction xs with
  | nil => intro l i; rfl
  | cons x xs ih =>
    intro l i
    show (writeSeq (l.set i x) (i + 1) xs).length = l.length
    rw [ih, List.length_set]

theorem writeSeq_cons_succ {α : Type} :
    ∀ (xs : List α) (y : α) (l : List α) (i : ℕ),
      writeSeq (y :: l) (i + 1) xs = y :: writeSeq l i xs := by
  intro xs
  induction xs with
  | nil => intro y l i; rfl
  | cons x xs ih =>
    intro y l i
    show writeSeq ((y :: l).set (i + 1) x) (i + 2) xs = y :: writeSeq (l.set i x) (i + 1) xs
    rw [List.set_cons_succ]
    exact ih y (l.set i x) (i + 1)

theorem writeSeq_replicate {α : Type} :
    ∀ (xs : List α) (n : ℕ) (d : α), xs.length ≤ n →
      writeSeq (List.replicate n d) 0 xs = xs ++ List.replicate (n - xs.length) d := by
  intro xs
  induction xs with
  | nil => intro n d _; rfl
  | cons x xs ih =>
    intro n d h
    match n with
    | n' + 1 =>
      show writeSeq ((List.replicate (n' + 1) d).set 0 x) 1 xs = _
      rw [List.replicate_succ, List.set_cons_zero, writeSeq_cons_succ,
        ih n' d (by simpa using h)]
      simp

theorem zip_map_fst_snd_eq {α β : Type} :
    ∀ (l : List (α × β)), (l.map Prod.fst).zip (l.map Prod.snd) = l := by
  intro l
  induction l with
  | nil => rfl
  | cons p ps ih => simp [ih]

theorem npSet_nat_inv {α : Type} {l l2 : List α} {i : ℕ} {v : α}
    (h : npSet l (i : ℤ) v = some l2) : i < l.length ∧ l2 = l.set i v := by
  rw [npSet_nat] at h
  split at h
  · cases h
    exact ⟨by assumption, rfl⟩
  · cases h

/-! ### Functional description of the fill loops

`parseFeats` is the order-preserving functional reading of the fill
loops of `libsvm_load_line`: the list of `(value, index)` pairs of the
digit-id tokens and the list of converted non-digit extras, failing on
exactly the token shapes and float strings the loops fail on.  The
lemmas below relate both loops to it. -/

/-- Functional reading of the fill loops: `(value, index)` pairs of the
digit-id tokens and converted extras, in token order. -/
def parseFeats {ε : Type} (cnd : List Char → List Char → ε) :
    List (List Char) → Option (List (ℚ × ℕ) × List ε)
  | [] => some ([], [])
  | t :: ts =>
    match splitChar ':' t with
    | [id_str, val_str] =>
      if pyIsdigit id_str then
        match parseFloat val_str with
        | none => none
        | some v =>
          match parseFeats cnd ts with
          | none => none
          | some (ps, ex) => some ((v, digitsToNat id_str) :: ps, ex)
      else
        match parseFeats cnd ts with
        | none => none
        | some (ps, ex) => some (ps, cnd id_str val_str :: ex)
    | _ => none

theorem fillSparse_some_inv {ε : Type} (cnd : List Char → List Char → ε) :
    ∀ (ts : List (List Char)) (i : ℕ) (vals : List ℚ) (idxs : List ℕ)
      (extra : List ε) (v2 : List ℚ) (x2 : List ℕ) (e2 : List ε),
      vals.length = idxs.length →
      fillSparse cnd ts i vals idxs extra = some (v2, x2, e2) →
      ∃ ps ex, parseFeats cnd ts = some (ps, ex) ∧
        (ps = [] ∨ i + ps.length ≤ idxs.length) ∧
        v2 = writeSeq vals i (ps.map Prod.fst) ∧
        x2 = writeSeq idxs i (ps.map Prod.snd) ∧
        e2 = extra ++ ex := by
  intro ts
  induction ts with
  | nil =>
    intro i vals idxs extra v2 x2 e2 _ hf
    simp only [fillSparse, Option.some.injEq, Prod.mk.injEq] at hf
    obtain ⟨h1, h2, h3⟩ := hf
    exact ⟨[], [], rfl, Or.inl rfl, h1.symm, h2.symm, by simp [h3]⟩
  | cons t ts ih =>
    intro i vals idxs extra v2 x2 e2 hlen hf
    simp only [fillSparse] at hf
    split at hf
    case h_2 => cases hf
    case h_1 id_str val_str hsp =>
      by_cases hd : pyIsdigit id_str
      · rw [if_pos hd] at hf
        cases hx : npSet idxs (i : ℤ) (digitsToNat id_str) with
        | none => rw [hx] at hf; cases hf
        | some idxs2 =>
          rw [hx] at hf
          dsimp only at hf
          cases hv : parseFloat val_str with
          | none => rw [hv] at hf; cases hf
          | some v =>
            rw [hv] at hf
            dsimp only at hf
            cases hw : npSet vals (i : ℤ) v with
            | none => rw [hw] at hf; cases hf
            | some vals2 =>
              rw [hw] at hf
              dsimp only at hf
              obtain ⟨hxi, hxeq⟩ := npSet_nat_inv hx
              obtain ⟨hwi, hweq⟩ := npSet_nat_inv hw
              have hlen2 : vals2.length = idxs2.length := by
                rw [npSet_some_length hw, npSet_some_length hx]
                exact hlen
              obtain ⟨ps, ex, hpf, hb, he1, he2, he3⟩ :=
                ih (i + 1) vals2 idxs2 extra v2 x2 e2 hlen2 hf
              refine ⟨(v, digitsToNat id_str) :: ps, ex, ?_, ?_, ?_, ?_, he3⟩
              · simp only [parseFeats, hsp, hd, if_true, hv, hpf]
              · right
                have hl2 : idxs2.length = idxs.length := npSet_some_length hx
                rcases hb with hb | hb
                · subst hb
                  simpa using hxi
                · simp only [List.length_cons]
                  omega
              · simpa [writeSeq, hweq] using he1
              · simpa [writeSeq, hxeq] using he2
      · rw [if_neg hd] at hf
        obtain ⟨ps, ex, hpf, hb, he1, he2, he3⟩ :=
          ih i vals idxs (extra ++ [cnd id_str val_str]) v2 x2 e2 hlen hf
        refine ⟨ps, cnd id_str val_str :: ex, ?_, hb, he1, he2, ?_⟩
        · have hd2 : pyIsdigit id_str = false := by
            simpa using hd
          simp only [parseFeats, hsp, hd2, Bool.false_eq_true, if_false, hpf]
        · simp [he3]

theorem fillDense_of_parseFeats {ε : Type} (cnd : List Char → List Char → ε) :
    ∀ (ts : List (List Char)) (ps : List (ℚ × ℕ)) (ex : List ε)
      (vec : List ℚ) (extra : List ε),
      parseFeats cnd ts = some (ps, ex) →
      (∀ p ∈ ps, 1 ≤ p.2 ∧ p.2 ≤ vec.length) →
      fillDense cnd ts vec extra =
        some (ps.foldl (fun v p => v.set (p.2 - 1) p.1) vec, extra ++ ex) := by
  intro ts
  induction ts with
  | nil =>
    intro ps ex vec extra hpf _
    simp only [parseFeats, Option.some.injEq, Prod.mk.injEq] at hpf
    obtain ⟨h1, h2⟩ := hpf
    subst h1
    subst h2
    simp [fillDense]
  | cons t ts ih =>
    intro ps ex vec extra hpf hb
    simp only [parseFeats] at hpf
    split at hpf
    case h_2 => cases hpf
    case h_1 id_str val_str hsp =>
      by_cases hd : pyIsdigit id_str
      · rw [if_pos hd] at hpf
        cases hv : parseFloat val_str with
        | none => rw [hv] at hpf; cases hpf
        | some v =>
          rw [hv] at hpf
          dsimp only at hpf
          cases hp2 : parseFeats cnd ts with
          | none => rw [hp2] at hpf; cases hpf
          | some pr =>
            obtain ⟨ps2, ex2⟩ := pr
            rw [hp2] at hpf
            dsimp only at hpf
            cases hpf
            have hbd := hb (v, digitsToNat id_str) (List.mem_cons_self ..)
            simp only [fillDense, hsp, hd, if_true, hv]
            rw [npSet_pred_some vec (digitsToNat id_str) v hbd.1 hbd.2]
            dsimp only
            rw [ih ps2 ex (vec.set (digitsToNat id_str - 1) v) extra hp2]
            · rfl
            · intro p hp
              rw [List.length_set]
              exact hb p (List.mem_cons_of_mem _ hp)
      · rw [if_neg hd] at hpf
        cases hp2 : parseFeats cnd ts with
        | none => rw [hp2] at hpf; cases hpf
        | some pr =>
          obtain ⟨ps2, ex2⟩ := pr
          rw [hp2] at hpf
          dsimp only at hpf
          cases hpf
          have hd2 : pyIsdigit id_str = false := by simpa using hd
          simp only [fillDense, hsp, hd2, Bool.false_eq_true, if_false]
          rw [ih ps ex2 vec (extra ++ [cnd id_str val_str]) hp2 hb]
          simp

theorem fillDense_none_of_big {ε : Type} (cnd : List Char → List Char → ε) :
    ∀ (ts : List (List Char)) (ps : List (ℚ × ℕ)) (ex : List ε)
      (vec : List ℚ) (extra : List ε) (v0 : ℚ) (i0 : ℕ),
      parseFeats cnd ts = some (ps, ex) → (v0, i0) ∈ ps →
      vec.length < i0 →
      fillDense cnd ts vec extra = none := by
  intro ts
  induction ts with
  | nil =>
    intro ps ex vec extra v0 i0 hpf hm _
    simp only [parseFeats, Option.some.injEq, Prod.mk.injEq] at hpf
    rw [← hpf.1] at hm
    cases hm
  | cons t ts ih =>
    intro ps ex vec extra v0 i0 hpf hm hlt
    simp only [parseFeats] at hpf
    split at hpf
    case h_2 => cases hpf
    case h_1 id_str val_str hsp =>
      by_cases hd : pyIsdigit id_str
      · rw [if_pos hd] at hpf
        cases hv : parseFloat val_str with
        | none =>
          simp only [fillDense, hsp, hd, if_true, hv]
        | some v =>
          rw [hv] at hpf
          dsimp only at hpf
          cases hp2 : parseFeats cnd ts with
          | none => rw [hp2] at hpf; cases hpf
          | some pr =>
            obtain ⟨ps2, ex2⟩ := pr
            rw [hp2] at hpf
            dsimp only at hpf
            cases hpf
            simp only [fillDense, hsp, hd, if_true, hv]
            rcases List.mem_cons.mp hm with hm1 | hm2
            · cases hm1
              rw [npSet_pred_none vec (digitsToNat id_str) v0 hlt]
            · cases hw : npSet vec ((digitsToNat id_str : ℤ) - 1) v with
              | none => rfl
              | some vec2 =>
                dsimp only
                refine ih ps2 ex vec2 extra v0 i0 hp2 hm2 ?_
                rw [npSet_some_length hw]
                exact hlt
      · rw [if_neg hd] at hpf
        cases hp2 : parseFeats cnd ts with
        | none => rw [hp2] at hpf; cases hpf
        | some pr =>
          obtain ⟨ps2, ex2⟩ := pr
          rw [hp2] at hpf
          dsimp only at hpf
          cases hpf
          have hd2 : pyIsdigit id_str = false := by simpa using hd
          simp only [fillDense, hsp, hd2, Bool.false_eq_true, if_false]
          exact ih ps ex2 vec (extra ++ [cnd id_str val_str]) v0 i0 hp2 hm hlt

theorem splitChar_no_colon (t : List Char) (h : hasColon t = false) :
    splitChar ':' t = [t] := by
  induction t with
  | nil => rfl
  | cons c cs ih =>
    simp only [hasColon, List.any_cons, Bool.or_eq_false_iff,
      decide_eq_false_iff_not] at h
    simp only [splitChar, splitP, decide_eq_true_eq, h.1, if_false]
    have := ih (by simpa [hasColon] using h.2)
    simp only [splitChar] at this
    rw [this]

theorem fillSparse_none_of_noColon {ε : Type} (cnd : List Char → List Char → ε) :
    ∀ (ts : List (List Char)) (t : List Char), t ∈ ts → hasColon t = false →
      ∀ (i : ℕ) (vals : List ℚ) (idxs : List ℕ) (extra : List ε),
        fillSparse cnd ts i vals idxs extra = none := by
  intro ts
  induction ts with
  | nil =>
    intro t hm
    cases hm
  | cons u ts ih =>
    intro t hm hnc i vals idxs extra
    rcases List.mem_cons.mp hm with hm1 | hm2
    · subst hm1
      simp only [fillSparse, splitChar_no_colon t hnc]
    · simp only [fillSparse]
      split
      case h_2 => rfl
      case h_1 id_str val_str hsp =>
        by_cases hd : pyIsdigit id_str
        · rw [if_pos hd]
          cases hx : npSet idxs (i : ℤ) (digitsToNat id_str) with
          | none => rfl
          | some idxs2 =>
            dsimp only
            cases hv : parseFloat val_str with
            | none => rfl
            | some v =>
              dsimp only
              cases hw : npSet vals (i : ℤ) v with
              | none => rfl
              | some vals2 =>
                dsimp only
                exact ih t hm2 hnc (i + 1) vals2 idxs2 extra
        · rw [if_neg hd]
          exact ih t hm2 hnc i vals idxs (extra ++ [cnd id_str val_str])

theorem fillDense_none_of_noColon {ε : Type} (cnd : List Char → List Char → ε) :
    ∀ (ts : List (List Char)) (t : List Char), t ∈ ts → hasColon t = false →
      ∀ (vec : List ℚ) (extra : List ε),
        fillDense cnd ts vec extra = none := by
  intro ts
  induction ts with
  | nil =>
    intro t hm
    cases hm
  | cons u ts ih =>
    intro t hm hnc vec extra
    rcases List.mem_cons.mp hm with hm1 | hm2
    · subst hm1
      simp only [fillDense, splitChar_no_colon t hnc]
    · simp only [fillDense]
      split
      case h_2 => rfl
      case h_1 id_str val_str hsp =>
        by_cases hd : pyIsdigit id_str
        · rw [if_pos hd]
          cases hv : parseFloat val_str with
          | none => rfl
          | some v =>
            dsimp only
            cases hw : npSet vec ((digitsToNat id_str : ℤ) - 1) v with
            | none => rfl
            | some vec2 =>
              dsimp only
              exact ih t hm2 hnc vec2 extra
        · rw [if_neg hd]
          exact ih t hm2 hnc vec (extra ++ [cnd id_str val_str])

theorem libsvm_load_line_sparse_inv {ε τ : Type}
    (cnd : List Char → List Char → ε) (ct : List Char → τ) (line : String)
    (is : ℤ) (vals : List ℚ) (idxs : List ℕ) (tgt : τ) (extra : List ε)
    (h : libsvm_load_line line cnd ct true is =
      some ⟨.sparse vals idxs, tgt, extra⟩) :
    ∃ t0 rest,
      (wsTokens line.data).filter (fun t => !removeTok t) = t0 :: rest ∧
      tgt = ct t0 ∧
      fillSparse cnd rest 0 (List.replicate (featCount line) 0)
        (List.replicate (featCount line) 0) [] = some (vals, idxs, extra) := by
  simp only [libsvm_load_line, libsvmLineToks, featCount] at h ⊢
  split at h
  · cases h
  case h_2 t0 rest heq =>
    rw [if_pos trivial] at h
    refine ⟨t0, rest, heq, ?_⟩
    cases hf : fillSparse cnd rest 0
        (List.replicate ((wsTokens line.data).countP featTok) 0)
        (List.replicate ((wsTokens line.data).countP featTok) 0) [] with
    | none => rw [hf] at h; cases h
    | some pr =>
      obtain ⟨vals2, idxs2, extra2⟩ := pr
      rw [hf] at h
      dsimp only at h
      simp only [Option.some.injEq, LibsvmExample.mk.injEq,
        LibsvmInput.sparse.injEq] at h
      obtain ⟨⟨h1, h2⟩, h3, h4⟩ := h
      subst h1
      subst h2
      subst h3
      subst h4
      exact ⟨rfl, rfl⟩

theorem sparse_vectors_length {ε τ : Type}
    (cnd : List Char → List Char → ε) (ct : List Char → τ) (line : String)
    (is : ℤ) (vals : List ℚ) (idxs : List ℕ) (tgt : τ) (extra : List ε)
    (h : libsvm_load_line line cnd ct true is =
      some ⟨.sparse vals idxs, tgt, extra⟩) :
    vals.length = featCount line ∧ idxs.length = featCount line := by
  obtain ⟨t0, rest, hfil, htgt, hfill⟩ :=
    libsvm_load_line_sparse_inv cnd ct line is vals idxs tgt extra h
  obtain ⟨ps, ex, hpf, hb, hv, hx, he⟩ :=
    fillSparse_some_inv cnd rest 0 _ _ [] vals idxs extra (by simp) hfill
  constructor
  · rw [hv, writeSeq_length]
    exact List.length_replicate ..
  · rw [hx, writeSeq_length]
    exact List.length_replicate ..

/-- C1: for a valid libsvm line (it parses in sparse mode and every
returned feature index is at least 1) and any `input_size` at least as
large as every feature index of the line, dense-mode parsing yields
exactly the scatter of the sparse `(values, indices)` pair into a zero
vector of length `input_size` at positions `indices - 1`, with the same
target and extras. -/
theorem c1_sparse_dense_agree {ε τ : Type}
    (cnd : List Char → List Char → ε) (ct : List Char → τ) (line : String)
    (is0 s : ℤ) (vals : List ℚ) (idxs : List ℕ) (tgt : τ) (extra : List ε)
    (hs : libsvm_load_line line cnd ct true is0 =
      some ⟨.sparse vals idxs, tgt, extra⟩)
    (hvalid : ∀ j ∈ idxs, 1 ≤ j)
    (hsize : ∀ j ∈ idxs, (j : ℤ) ≤ s)
    (h0 : 0 ≤ s) :
    libsvm_load_line line cnd ct false s =
      some ⟨.dense (scatter s.toNat vals idxs), tgt, extra⟩ := by
  obtain ⟨t0, rest, hfil, htgt, hfill⟩ :=
    libsvm_load_line_sparse_inv cnd ct line is0 vals idxs tgt extra hs
  obtain ⟨ps, ex, hpf, hb, hv, hx, he⟩ :=
    fillSparse_some_inv cnd rest 0 _ _ [] vals idxs extra (by simp) hfill
  have hpslen : ps.length ≤ featCount line := by
    rcases hb with hb | hb
    · subst hb
      simp
    · simpa using hb
  have hvals : vals = ps.map Prod.fst ++
      List.replicate (featCount line - ps.length) 0 := by
    rw [hv, writeSeq_replicate _ _ 0 (by simpa using hpslen)]
    simp
  have hidxs : idxs = ps.map Prod.snd ++
      List.replicate (featCount line - ps.length) 0 := by
    rw [hx, writeSeq_replicate _ _ 0 (by simpa using hpslen)]
    simp
  have hnopad : featCount line - ps.length = 0 := by
    by_contra hne
    have hmem : (0 : ℕ) ∈ idxs := by
      rw [hidxs]
      exact List.mem_append_right _ (List.mem_replicate.mpr ⟨hne, rfl⟩)
    have := hvalid 0 hmem
    omega
  rw [hnopad, List.replicate_zero, List.append_nil] at hvals hidxs
  have hbound : ∀ p ∈ ps, 1 ≤ p.2 ∧ p.2 ≤ (List.replicate s.toNat (0 : ℚ)).length := by
    intro p hp
    have hmem : p.2 ∈ idxs := by
      rw [hidxs]
      exact List.mem_map_of_mem _ hp
    have h1 := hvalid p.2 hmem
    have h2 := hsize p.2 hmem
    constructor
    · exact h1
    · rw [List.length_replicate]
      omega
  have hdf := fillDense_of_parseFeats cnd rest ps ex
    (List.replicate s.toNat 0) [] hpf hbound
  simp only [libsvm_load_line, libsvmLineToks]
  rw [hfil]
  dsimp only
  rw [if_neg (by simp), if_neg (by omega), hdf]
  dsimp only
  rw [htgt, hvals, hidxs, he]
  simp only [scatter, zip_map_fst_snd_eq, List.nil_append]

/-- C1 witness: concrete instantiation of `c1_sparse_dense_agree` on the
line `"+1 2:1.5 1:0.5"` with `input_size = 2`. -/
theorem c1_sparse_dense_agree_witness :
    libsvm_load_line ("+1 2:1.5 1:0.5") pairConv idConv false 2 =
      some ⟨.dense (scatter (Int.toNat 2) [mkRat 3 2, mkRat 1 2] [2, 1]),
        ['+', '1'], []⟩ :=
  c1_sparse_dense_agree pairConv idConv ("+1 2:1.5 1:0.5") (-1) 2
    [mkRat 3 2, mkRat 1 2] [2, 1] ['+', '1'] [] (by decide) (by decide)
    (by decide)
    (by decide)

/-- C3 counterexample: on the line `"1:1 2:2"` the sparse vectors returned
by `libsvm_load_line` have length 2 (with a trailing zero entry in each),
while only 1 post-target token has the form `id:value` with an all-digit
id of value at least 1 — the counting loop also counted the target token
`"1:1"`. -/
theorem c3_counterexample :
    libsvm_load_line ("1:1 2:2") pairConv idConv true (-1) =
      some ⟨.sparse [2, 0] [2, 0], ['1', ':', '1'], []⟩ ∧
    ((wsTokens ("1:1 2:2").data).drop 1).countP featTok = 1 ∧
    (2 : ℕ) ≠ 1 := by
  refine ⟨by decide, by decide, by decide⟩

/-- C3 (amended): in sparse mode the returned index and value vectors have
length `n_feat`, the number of tokens of the whole line — including the
first (target) token — whose part before the first `:` is all digits
with integer value at least 1; only post-target tokens are filled, so a
feature-like target token leaves trailing zero entries. -/
theorem c3_amended_vector_length {ε τ : Type}
    (cnd : List Char → List Char → ε) (ct : List Char → τ) (line : String)
    (is : ℤ) (vals : List ℚ) (idxs : List ℕ) (tgt : τ) (extra : List ε)
    (h : libsvm_load_line line cnd ct true is =
      some ⟨.sparse vals idxs, tgt, extra⟩) :
    vals.length = featCount line ∧ idxs.length = featCount line :=
  sparse_vectors_length cnd ct line is vals idxs tgt extra h

/-- C3 witness: the amended length law evaluated on `"+1 1:0.5"`. -/
theorem c3_amended_vector_length_witness :
    ([mkRat 1 2]).length = featCount ("+1 1:0.5") ∧
    ([1] : List ℕ).length = featCount ("+1 1:0.5") :=
  c3_amended_vector_length pairConv idConv ("+1 1:0.5") (-1) [mkRat 1 2] [1]
    ['+', '1'] [] (by decide)

/-- C8: a libsvm line whose processed token list contains, after the
target token, a token without the `:` separator makes `libsvm_load_line`
fail in both sparse and dense mode, whatever the `input_size`. -/
theorem c8_missing_colon_error {ε τ : Type}
    (cnd : List Char → List Char → ε) (ct : List Char → τ) (line : String)
    (t0 t : List Char) (rest : List (List Char))
    (hfil : (wsTokens line.data).filter (fun u => !removeTok u) = t0 :: rest)
    (hmem : t ∈ rest) (hnc : hasColon t = false)
    (sp : Bool) (is : ℤ) :
    libsvm_load_line line cnd ct sp is = none := by
  simp only [libsvm_load_line, libsvmLineToks]
  rw [hfil]
  dsimp only
  cases sp with
  | true =>
    rw [if_pos rfl, fillSparse_none_of_noColon cnd rest t hmem hnc]
  | false =>
    rw [if_neg (by simp)]
    by_cases his : is < 0
    · rw [if_pos his]
    · rw [if_neg his, fillDense_none_of_noColon cnd rest t hmem hnc]

/-- C8 witness: the line `"+1 foo"` fails to parse in sparse mode. -/
theorem c8_missing_colon_error_witness :
    libsvm_load_line ("+1 foo") pairConv idConv true (-1) =
      (none : Option (LibsvmExample (List Char) (List Char × List Char))) :=
  c8_missing_colon_error pairConv idConv ("+1 foo") ['+', '1'] ['f', 'o', 'o']
    [['f', 'o', 'o']] (by decide) (by decide) (by decide) true (-1)

/-- C2: loading the two-line file `"+1 1:0.5 3:2.0"` / `"-1 2:1.0"` with no
supplied `input_size` in sparse mode yields `input_size = 3`, targets
`{"+1", "-1"}`, and example 0's sparse input `(values = [0.5, 2.0],
indices = [1, 3])`; the dense reload with `input_size = 3` yields the
dense vectors `[0.5, 0, 2.0]` and `[0, 1.0, 0]`. -/
theorem c2_concrete_load :
    libsvm_load (["+1 1:0.5 3:2.0", "-1 2:1.0"]) pairConv strConv true none =
      some ([⟨.sparse [mkRat 1 2, 2] [1, 3], "+1", []⟩,
             ⟨.sparse [1] [2], "-1", []⟩],
            ⟨{"+1", "-1"}, 3⟩) ∧
    libsvm_load (["+1 1:0.5 3:2.0", "-1 2:1.0"]) pairConv strConv false
        (some 3) =
      some ([⟨.dense [mkRat 1 2, 0, 2], "+1", []⟩,
             ⟨.dense [0, 1, 0], "-1", []⟩],
            ⟨{"+1", "-1"}, 3⟩) := by
  have h1 : libsvm_load (["+1 1:0.5 3:2.0", "-1 2:1.0"]) pairConv strConv
      true none =
      some ([⟨.sparse [mkRat 1 2, 2] [1, 3], "+1", []⟩,
             ⟨.sparse [1] [2], "-1", []⟩],
            ⟨{"-1", "+1"}, 3⟩) := by rfl
  have h2 : libsvm_load (["+1 1:0.5 3:2.0", "-1 2:1.0"]) pairConv strConv
      false (some 3) =
      some ([⟨.dense [mkRat 1 2, 0, 2], "+1", []⟩,
             ⟨.dense [0, 1, 0], "-1", []⟩],
            ⟨{"-1", "+1"}, 3⟩) := by rfl
  rw [h1, h2, Finset.pair_comm]
  exact ⟨rfl, rfl⟩

theorem removeTok_not_featTok (t : List Char) (h : removeTok t = true) :
    featTok t = false := by
  simp only [removeTok, Bool.and_eq_true, beq_iff_eq] at h
  simp [featTok, h.1.1, h.1.2, h.2]

theorem libsvmLineToks_removed_congr {ε τ : Type}
    (cnd : List Char → List Char → ε) (ct : List Char → τ)
    (A B : List (List Char)) (t : List Char) (hr : removeTok t = true)
    (sp : Bool) (is : ℤ) :
    libsvmLineToks cnd ct sp is (A ++ t :: B) =
      libsvmLineToks cnd ct sp is (A ++ B) := by
  have hf : (A ++ t :: B).filter (fun u => !removeTok u) =
      (A ++ B).filter (fun u => !removeTok u) := by
    simp [List.filter_append, List.filter_cons, hr]
  have hc : (A ++ t :: B).countP featTok = (A ++ B).countP featTok := by
    simp [List.countP_append, List.countP_cons, removeTok_not_featTok t hr]
  simp only [libsvmLineToks, hf, hc]

theorem loadPass1_congr {ε τ : Type} [DecidableEq τ]
    (cnd : List Char → List Char → ε) (ct : List Char → τ) (sp : Bool)
    (line1 line2 : String)
    (hline : ∀ (sp2 : Bool) (is2 : ℤ),
      libsvm_load_line line1 cnd ct sp2 is2 =
        libsvm_load_line line2 cnd ct sp2 is2) :
    ∀ (pre post : List String) (isz : ℤ) (given : Option ℤ)
      (tg : Finset τ) (dt : List (LibsvmExample τ ε)),
      loadPass1 cnd ct sp (pre ++ line1 :: post) isz given tg dt =
        loadPass1 cnd ct sp (pre ++ line2 :: post) isz given tg dt := by
  intro pre
  induction pre with
  | nil =>
    intro post isz given tg dt
    simp only [List.nil_append, loadPass1]
    rw [hline true (-1)]
  | cons l pre ih =>
    intro post isz given tg dt
    simp only [List.cons_append, loadPass1]
    cases libsvm_load_line l cnd ct true (-1) with
    | none => rfl
    | some ex =>
      dsimp only
      cases sparseIndices ex with
      | none => rfl
      | some idxs =>
        dsimp only
        cases pyMax idxs with
        | none => rfl
        | some m =>
          dsimp only
          exact ih post _ given _ _

theorem loadPass2_congr {ε τ : Type}
    (cnd : List Char → List Char → ε) (ct : List Char → τ) (isz : ℤ)
    (line1 line2 : String)
    (hline : ∀ (sp2 : Bool) (is2 : ℤ),
      libsvm_load_line line1 cnd ct sp2 is2 =
        libsvm_load_line line2 cnd ct sp2 is2) :
    ∀ (pre post : List String) (dt : List (LibsvmExample τ ε)),
      loadPass2 cnd ct isz (pre ++ line1 :: post) dt =
        loadPass2 cnd ct isz (pre ++ line2 :: post) dt := by
  intro pre
  induction pre with
  | nil =>
    intro post dt
    simp only [List.nil_append, loadPass2]
    rw [hline false isz]
  | cons l pre ih =>
    intro post dt
    simp only [List.cons_append, loadPass2]
    cases libsvm_load_line l cnd ct false isz with
    | none => rfl
    | some ex =>
      dsimp only
      exact ih post _

/-- C4: a feature token whose all-digit index is `≤ 0` (i.e. `0`, the only
value digits allow below 1) is removed before parsing: a line containing
it parses, in both modes, exactly as the same line without it, and
`libsvm_load` on a file containing such a line equals `libsvm_load` on
the file with the token deleted — so the feature is absent from sparse
and dense outputs, contributes nothing to `n_feat`, and does not affect
the discovered `input_size`. -/
theorem c4_negative_index_removed {ε τ : Type} [DecidableEq τ]
    (cnd : List Char → List Char → ε) (ct : List Char → τ)
    (line1 line2 : String) (A B : List (List Char)) (t : List Char)
    (h1 : wsTokens line1.data = A ++ t :: B)
    (h2 : wsTokens line2.data = A ++ B)
    (hr : removeTok t = true) :
    (∀ (sp : Bool) (is : ℤ),
      libsvm_load_line line1 cnd ct sp is =
        libsvm_load_line line2 cnd ct sp is) ∧
    (∀ (pre post : List String) (sp : Bool) (iso : Option ℤ),
      libsvm_load (pre ++ line1 :: post) cnd ct sp iso =
        libsvm_load (pre ++ line2 :: post) cnd ct sp iso) := by
  have hline : ∀ (sp : Bool) (is : ℤ),
      libsvm_load_line line1 cnd ct sp is =
        libsvm_load_line line2 cnd ct sp is := by
    intro sp is
    simp only [libsvm_load_line, h1, h2]
    exact libsvmLineToks_removed_congr cnd ct A B t hr sp is
  refine ⟨hline, ?_⟩
  intro pre post sp iso
  simp only [libsvm_load]
  rw [loadPass1_congr cnd ct sp line1 line2 hline pre post]
  cases loadPass1 cnd ct sp (pre ++ line2 :: post)
      (match iso with | none => 0 | some s => s) iso ∅ [] with
  | none => rfl
  | some r =>
    obtain ⟨isz, tg, dt⟩ := r
    dsimp only
    cases sp with
    | true => rfl
    | false =>
      simp only [Bool.false_eq_true, if_false]
      rw [loadPass2_congr cnd ct isz line1 line2 hline pre post]

/-- C4 witness: the token `0:9` is removed; `"+1 0:9 2:3"` loads exactly
like `"+1 2:3"`. -/
theorem c4_negative_index_removed_witness :
    libsvm_load (["-1 3:1", "+1 0:9 2:3"]) pairConv idConv true none =
      libsvm_load (["-1 3:1", "+1 2:3"]) pairConv idConv true none :=
  (c4_negative_index_removed pairConv idConv ("+1 0:9 2:3") ("+1 2:3")
    [['+', '1']] [['2', ':', '3']] ['0', ':', '9'] (by decide) (by decide)
    (by decide)).2 ["-1 3:1"] [] true none

theorem loadPass1_given_isz {ε τ : Type} [DecidableEq τ]
    (cnd : List Char → List Char → ε) (ct : List Char → τ) (sp : Bool)
    (g : ℤ) :
    ∀ (ls : List String) (isz : ℤ) (tg : Finset τ)
      (dt : List (LibsvmExample τ ε)) (isz2 : ℤ) (tg2 : Finset τ)
      (dt2 : List (LibsvmExample τ ε)),
      loadPass1 cnd ct sp ls isz (some g) tg dt = some (isz2, tg2, dt2) →
      isz2 = isz := by
  intro ls
  induction ls with
  | nil =>
    intro isz tg dt isz2 tg2 dt2 h
    simp only [loadPass1, Option.some.injEq, Prod.mk.injEq] at h
    exact h.1.symm
  | cons l ls ih =>
    intro isz tg dt isz2 tg2 dt2 h
    simp only [loadPass1] at h
    cases hp : libsvm_load_line l cnd ct true (-1) with
    | none => rw [hp] at h; cases h
    | some ex =>
      rw [hp] at h
      dsimp only at h
      cases hq : sparseIndices ex with
      | none => rw [hq] at h; cases h
      | some idxs =>
        rw [hq] at h
        dsimp only at h
        cases hm : pyMax idxs with
        | none => rw [hm] at h; cases h
        | some m =>
          rw [hm] at h
          dsimp only at h
          rw [if_neg (by simp)] at h
          exact ih isz _ _ isz2 tg2 dt2 h

theorem loadPass2_all_some {ε τ : Type}
    (cnd : List Char → List Char → ε) (ct : List Char → τ) (isz : ℤ) :
    ∀ (ls : List String) (dt dt2 : List (LibsvmExample τ ε)),
      loadPass2 cnd ct isz ls dt = some dt2 →
      ∀ line ∈ ls, ∃ ex, libsvm_load_line line cnd ct false isz = some ex := by
  intro ls
  induction ls with
  | nil =>
    intro dt dt2 _ line hm
    cases hm
  | cons l ls ih =>
    intro dt dt2 h line hm
    simp only [loadPass2] at h
    cases hp : libsvm_load_line l cnd ct false isz with
    | none => rw [hp] at h; cases h
    | some ex =>
      rw [hp] at h
      dsimp only at h
      rcases List.mem_cons.mp hm with hm1 | hm2
      · subst hm1
        exact ⟨ex, hp⟩
      · exact ih _ dt2 h line hm2

/-- C5: if the caller supplies an `input_size` strictly smaller than some
feature index occurring in the file (as reported by the sparse parse of
the offending line), then dense-mode parsing of that line with the
supplied size fails — the write is neither clamped nor the vector
resized — and `libsvm_load` in dense mode with that size fails. -/
theorem c5_dense_undersized_error {ε τ : Type} [DecidableEq τ]
    (cnd : List Char → List Char → ε) (ct : List Char → τ)
    (lines : List String) (L : String) (s : ℤ)
    (vals : List ℚ) (idxs : List ℕ) (tgt : τ) (extra : List ε) (idx : ℕ)
    (hL : L ∈ lines)
    (hparse : libsvm_load_line L cnd ct true (-1) =
      some ⟨.sparse vals idxs, tgt, extra⟩)
    (hmem : idx ∈ idxs)
    (hgt : s < (idx : ℤ)) :
    libsvm_load_line L cnd ct false s = none ∧
    libsvm_load lines cnd ct false (some s) = none := by
  have hdense : libsvm_load_line L cnd ct false s = none := by
    obtain ⟨t0, rest, hfil, htgt, hfill⟩ :=
      libsvm_load_line_sparse_inv cnd ct L (-1) vals idxs tgt extra hparse
    simp only [libsvm_load_line, libsvmLineToks]
    rw [hfil]
    dsimp only
    rw [if_neg (by simp)]
    by_cases hs0 : s < 0
    · rw [if_pos hs0]
    · rw [if_neg hs0]
      obtain ⟨ps, ex, hpf, hb, hv, hx, he⟩ :=
        fillSparse_some_inv cnd rest 0 _ _ [] vals idxs extra (by simp) hfill
      have hidx1 : 1 ≤ idx := by omega
      have hmem2 : idx ∈ ps.map Prod.snd := by
        have hpslen : ps.length ≤ featCount L := by
          rcases hb with hb | hb
          · subst hb
            simp
          · simpa using hb
        have hidxs : idxs = ps.map Prod.snd ++
            List.replicate (featCount L - ps.length) 0 := by
          rw [hx, writeSeq_replicate _ _ 0 (by simpa using hpslen)]
          simp
        rw [hidxs] at hmem
        rcases List.mem_append.mp hmem with hmm | hmm
        · exact hmm
        · have := List.eq_of_mem_replicate hmm
          omega
      obtain ⟨⟨v0, i0⟩, hpmem, hpi⟩ := List.mem_map.mp hmem2
      dsimp only at hpi
      subst hpi
      rw [fillDense_none_of_big cnd rest ps ex
        (List.replicate s.toNat 0) [] v0 i0 hpf hpmem
        (by rw [List.length_replicate]; omega)]
  refine ⟨hdense, ?_⟩
  cases hload : libsvm_load lines cnd ct false (some s) with
  | none => rfl
  | some r =>
    exfalso
    simp only [libsvm_load] at hload
    cases hp1 : loadPass1 cnd ct false lines s (some s)
        (∅ : Finset τ) [] with
    | none => rw [hp1] at hload; cases hload
    | some r1 =>
      obtain ⟨isz, tg, dt⟩ := r1
      rw [hp1] at hload
      dsimp only at hload
      rw [if_neg (by simp)] at hload
      have hisz : isz = s := loadPass1_given_isz cnd ct false s lines s ∅ []
        isz tg dt hp1
      subst hisz
      cases hp2 : loadPass2 cnd ct isz lines dt with
      | none => rw [hp2] at hload; cases hload
      | some dt2 =>
        obtain ⟨ex, hex⟩ := loadPass2_all_some cnd ct isz lines dt dt2 hp2 L hL
        rw [hdense] at hex
        cases hex

/-- C5 witness: loading `["+1 3:1.5"]` densely with supplied
`input_size = 2` fails, as does dense parsing of the line itself. -/
theorem c5_dense_undersized_error_witness :
    libsvm_load_line ("+1 3:1.5") pairConv idConv false 2 =
      (none : Option (LibsvmExample (List Char) (List Char × List Char))) ∧
    libsvm_load (["+1 3:1.5"]) pairConv idConv false (some 2) = none :=
  c5_dense_undersized_error pairConv idConv ["+1 3:1.5"] ("+1 3:1.5") 2
    [mkRat 3 2] [3] ['+', '1'] [] 3 (by decide) (by decide) (by decide)
    (by decide)

theorem load_line_true_shape {ε τ : Type}
    (cnd : List Char → List Char → ε) (ct : List Char → τ) (line : String)
    (is : ℤ) (ex : LibsvmExample τ ε)
    (h : libsvm_load_line line cnd ct true is = some ex) :
    ∃ vals idxs tgt extra, ex = ⟨.sparse vals idxs, tgt, extra⟩ := by
  simp only [libsvm_load_line, libsvmLineToks] at h
  split at h
  · cases h
  case h_2 t0 rest heq =>
    rw [if_pos trivial] at h
    split at h
    · cases h
    case h_2 vals idxs extra hf =>
      simp only [Option.some.injEq] at h
      exact ⟨vals, idxs, ct t0, extra, h.symm⟩

theorem loadPass1_none_of_featCount0 {ε τ : Type} [DecidableEq τ]
    (cnd : List Char → List Char → ε) (ct : List Char → τ) (sp : Bool)
    (L : String) (h0 : featCount L = 0) :
    ∀ (ls : List String), L ∈ ls →
      ∀ (isz : ℤ) (given : Option ℤ) (tg : Finset τ)
        (dt : List (LibsvmExample τ ε)),
        loadPass1 cnd ct sp ls isz given tg dt = none := by
  intro ls
  induction ls with
  | nil =>
    intro hm
    cases hm
  | cons l ls ih =>
    intro hm isz given tg dt
    simp only [loadPass1]
    rcases List.mem_cons.mp hm with hm1 | hm2
    · subst hm1
      cases hp : libsvm_load_line L cnd ct true (-1) with
      | none => rfl
      | some ex =>
        dsimp only
        obtain ⟨vals, idxs, tgt, extra, hex⟩ :=
          load_line_true_shape cnd ct L (-1) ex hp
        subst hex
        have hlen := (sparse_vectors_length cnd ct L (-1) vals idxs tgt
          extra hp).2
        rw [h0] at hlen
        have hnil : idxs = [] := List.eq_nil_of_length_eq_zero hlen
        simp only [sparseIndices]
        rw [hnil]
        rfl
    · cases hp : libsvm_load_line l cnd ct true (-1) with
      | none => rfl
      | some ex =>
        dsimp only
        cases hq : sparseIndices ex with
        | none => rfl
        | some idxs =>
          dsimp only
          cases hm2q : pyMax idxs with
          | none => rfl
          | some m =>
            dsimp only
            exact ih hm2 _ given _ _

/-- C6: a file containing a line with zero numeric feature tokens (for
example a bare target) makes `libsvm_load` fail — the first pass takes
the `max` of that line's empty index vector — in both sparse and dense
mode, with or without a supplied `input_size`; the empty sparse pair is
reachable only by calling `libsvm_load_line` directly, as the second
conjunct's direct call shows. -/
theorem c6_empty_feature_line_error {ε τ : Type} [DecidableEq τ]
    (cnd : List Char → List Char → ε) (ct : List Char → τ)
    (lines : List String) (L : String) (hL : L ∈ lines)
    (h0 : featCount L = 0) (sp : Bool) (iso : Option ℤ) :
    libsvm_load lines cnd ct sp iso = none ∧
    libsvm_load_line ("+1") cnd ct true (-1) =
      some ⟨.sparse [] [], ct ['+', '1'], []⟩ := by
  constructor
  · simp only [libsvm_load]
    rw [loadPass1_none_of_featCount0 cnd ct sp L h0 lines hL]
  · rfl

/-- C6 witness: the two-line file whose second line is the bare target
`"-1"` fails to load in sparse mode. -/
theorem c6_empty_feature_line_error_witness :
    libsvm_load (["+1 1:2", "-1"]) pairConv idConv true none = none ∧
    libsvm_load_line ("+1") pairConv idConv true (-1) =
      some ⟨.sparse [] [], idConv ['+', '1'], []⟩ :=
  c6_empty_feature_line_error pairConv idConv ["+1 1:2", "-1"] ("-1")
    (by decide) (by decide) true none

theorem pyMax_of_ne_nil (l : List ℕ) (h : l ≠ []) : ∃ m, pyMax l = some m := by
  cases l with
  | nil => cases h rfl
  | cons x xs => exact ⟨xs.foldl Nat.max x, rfl⟩

theorem loadPass1_given_verbatim {ε τ : Type} [DecidableEq τ]
    (cnd : List Char → List Char → ε) (ct : List Char → τ) (g : ℤ) :
    ∀ (ls : List String) (exs : List (LibsvmExample τ ε)),
      parseLinesSparse cnd ct ls = some exs →
      (∀ ex ∈ exs, ∃ idxs, sparseIndices ex = some idxs ∧ idxs ≠ []) →
      ∀ (tg : Finset τ) (dt : List (LibsvmExample τ ε)),
        loadPass1 cnd ct true ls g (some g) tg dt =
          some (g, exs.foldl (fun a ex => insert ex.target a) tg, dt ++ exs) := by
  intro ls
  induction ls with
  | nil =>
    intro exs hp _ tg dt
    simp only [parseLinesSparse, Option.some.injEq] at hp
    subst hp
    simp [loadPass1]
  | cons l ls ih =>
    intro exs hp hne tg dt
    simp only [parseLinesSparse] at hp
    cases hl : libsvm_load_line l cnd ct true (-1) with
    | none => rw [hl] at hp; cases hp
    | some ex =>
      rw [hl] at hp
      dsimp only at hp
      cases hr : parseLinesSparse cnd ct ls with
      | none => rw [hr] at hp; cases hp
      | some exs2 =>
        rw [hr] at hp
        dsimp only at hp
        cases hp
        obtain ⟨idxs, hidxs, hnn⟩ := hne ex (List.mem_cons_self ..)
        obtain ⟨m, hm⟩ := pyMax_of_ne_nil idxs hnn
        simp only [loadPass1, hl, hidxs, hm]
        rw [if_neg (by simp), if_pos trivial]
        rw [ih exs2 hr
          (fun e he => hne e (List.mem_cons_of_mem _ he)) _ _]
        simp

/-- C10 counterexample: the claim quantifies over every file, but a file
whose line has no numeric feature (here the bare target `"+1"`) makes
the sparse load fail even with a supplied `input_size`. -/
theorem c10_counterexample :
    libsvm_load (["+1"]) pairConv strConv true (some 5) = none := by
  rfl

/-- C10 (amended): for every file whose lines all parse in sparse mode
with at least one feature index each, and every caller-supplied
`input_size`, sparse-mode `libsvm_load` succeeds, returns metadata
`input_size` equal to the supplied value unchanged, and keeps the
per-line sparse parses verbatim — feature indices exceeding the
supplied size included — with no error. -/
theorem c10_amended_supplied_size {ε τ : Type} [DecidableEq τ]
    (cnd : List Char → List Char → ε) (ct : List Char → τ)
    (lines : List String) (exs : List (LibsvmExample τ ε)) (s : ℤ)
    (hparse : parseLinesSparse cnd ct lines = some exs)
    (hne : ∀ ex ∈ exs, ∃ idxs, sparseIndices ex = some idxs ∧ idxs ≠ []) :
    libsvm_load lines cnd ct true (some s) =
      some (exs, ⟨exs.foldl (fun a ex => insert ex.target a) ∅, s⟩) := by
  simp only [libsvm_load]
  rw [loadPass1_given_verbatim cnd ct s lines exs hparse hne ∅ []]
  simp

/-- C10 witness: the single-line file `"+1 7:2.5"` loaded with supplied
`input_size = 3` succeeds, keeps index 7 verbatim, and reports
`input_size = 3`. -/
theorem c10_amended_supplied_size_witness :
    libsvm_load (["+1 7:2.5"]) pairConv strConv true (some 3) =
      some ([⟨.sparse [mkRat 5 2] [7], "+1", []⟩],
        ⟨[(⟨.sparse [mkRat 5 2] [7], "+1", []⟩ :
            LibsvmExample String (List Char × List Char))].foldl
          (fun a ex => insert ex.target a) ∅, 3⟩) :=
  c10_amended_supplied_size pairConv strConv ["+1 7:2.5"]
    [⟨.sparse [mkRat 5 2] [7], "+1", []⟩] 3 (by rfl)
    (by decide)

theorem pySlice_high (r : List ℚ) (b e : ℤ) (hb : 0 ≤ b)
    (he : (r.length : ℤ) ≤ e) : pySlice r b e = r.drop b.toNat := by
  unfold pySlice
  have hb2 : ¬b < 0 := by omega
  have he2 : ¬e < 0 := by omega
  simp only [hb2, he2, if_false]
  have hmine : min e (r.length : ℤ) = (r.length : ℤ) := min_eq_right he
  rw [hmine]
  by_cases hbn : b ≤ (r.length : ℤ)
  · have hminb : min b (r.length : ℤ) = b := min_eq_left hbn
    rw [hminb]
    have hlen : (r.drop b.toNat).length = r.length - b.toNat :=
      List.length_drop ..
    apply List.take_of_length_le
    rw [hlen]
    omega
  · have hminb : min b (r.length : ℤ) = (r.length : ℤ) := by
      apply min_eq_right
      omega
    rw [hminb]
    rw [List.drop_of_length_le (by omega), List.drop_of_length_le (by omega)]
    simp

/-- C7 counterexample: a descriptor `(0, 5)` exceeding the 2-column buffer
does not make iteration fail: `IteratorWithFields` yields the clipped
slice `[1, 2]` (length 2, not 5) with no out-of-bounds condition. -/
theorem c7_counterexample :
    iterWithFields [[1, 2]] [(0, 5)] = [[[1, 2]]] ∧ (2 : ℤ) < 5 := by
  constructor
  · rfl
  · decide

/-- C7 (amended): when a field descriptor `(b, e)` with `0 ≤ b` has `e` at
or beyond the buffer's column extent, iterating `IteratorWithFields`
does not fail: the yielded slice for that field is the row clipped from
position `b` to the row's end (Python slice semantics), never longer
than the row. -/
theorem c7_amended_clipping (data : List (List ℚ)) (fields : List (ℤ × ℤ))
    (i j : ℕ) (r : List ℚ) (b e : ℤ)
    (hdi : data[i]? = some r) (hfj : fields[j]? = some (b, e))
    (hb : 0 ≤ b) (he : (r.length : ℤ) ≤ e) :
    ∃ row, (iterWithFields data fields)[i]? = some row ∧
      row[j]? = some (r.drop b.toNat) ∧
      (r.drop b.toNat).length ≤ r.length := by
  refine ⟨fields.map (fun p => pySlice r p.1 p.2), ?_, ?_, ?_⟩
  · simp [iterWithFields, List.getElem?_map, hdi]
  · rw [List.getElem?_map, hfj]
    dsimp only [Option.map]
    rw [pySlice_high r b e hb he]
  · rw [List.length_drop]
    omega

/-- C7 witness: concrete clipping on a 1×2 buffer with descriptor
`(0, 5)`. -/
theorem c7_amended_clipping_witness :
    ∃ row, (iterWithFields [[1, 2]] [(0, 5)])[0]? = some row ∧
      row[0]? = some (([1, 2] : List ℚ).drop (Int.toNat 0)) ∧
      (([1, 2] : List ℚ).drop (Int.toNat 0)).length ≤ ([1, 2] : List ℚ).length :=
  c7_amended_clipping [[1, 2]] [(0, 5)] 0 0 [1, 2] 0 5 (by rfl) (by rfl)
    (by decide) (by decide)

/-! ### Round-trip lemmas for the in-memory materializer -/

/-- The NumPy value of a single-field example object (scaffolding for the
round-trip statement; single-field examples are the value itself). -/
def unwrapArr : PyObj → NpArr
  | .arrV a => a
  | .listV _ => .scalar 0

/-- Field `j` of a multi-field example object (scaffolding for the
round-trip statement). -/
def cellAt (j : ℕ) : PyObj → NpArr
  | .listV l => l.getD j (.scalar 0)
  | .arrV _ => .scalar 0

theorem assignField_id (sh : List ℕ) (v : NpArr)
    (h : fieldMatchB sh v = true) :
    assignField (fun q => q) sh v = some v := by
  cases v with
  | scalar q =>
    simp only [fieldMatchB, beq_iff_eq] at h
    simp [assignField, h]
  | tensor sh2 es =>
    simp only [fieldMatchB, Bool.and_eq_true, beq_iff_eq, Bool.not_eq_eq_eq_not,
      Bool.not_true, beq_eq_false_iff_ne, ne_eq] at h
    obtain ⟨⟨h1, h2⟩, h3⟩ := h
    subst h2
    rw [assignField, if_neg h1, if_pos ⟨rfl, h3⟩, List.map_id']

theorem copySingle_spec (sh : List ℕ) :
    ∀ (exs : List PyObj) (t : ℕ) (buf : List NpArr),
      (∀ ex ∈ exs, ∃ a, ex = .arrV a ∧ fieldMatchB sh a = true) →
      t + exs.length ≤ buf.length →
      copySingle (fun q => q) sh exs t buf =
        some (writeSeq buf t (exs.map unwrapArr)) := by
  intro exs
  induction exs with
  | nil =>
    intro t buf _ _
    rfl
  | cons ex exs ih =>
    intro t buf hm hb
    obtain ⟨a, hex, hmb⟩ := hm ex (List.mem_cons_self ..)
    subst hex
    simp only [copySingle, assignField_id sh a hmb]
    rw [npSet_nat_some buf t a (by simp at hb; omega)]
    dsimp only
    rw [ih (t + 1) (buf.set t a)
      (fun e he => hm e (List.mem_cons_of_mem _ he))
      (by rw [List.length_set]; simp at hb; omega)]
    rfl

theorem map_arrV_unwrap (data : List PyObj)
    (h : ∀ ex ∈ data, ∃ a, ex = .arrV a) :
    (data.map unwrapArr).map PyObj.arrV = data := by
  induction data with
  | nil => rfl
  | cons ex exs ih =>
    obtain ⟨a, hex⟩ := h ex (List.mem_cons_self ..)
    subst hex
    simp only [List.map_cons, unwrapArr]
    rw [ih (fun e he => h e (List.mem_cons_of_mem _ he))]

theorem getElem?_zipWith_eq {α β γ : Type} (f : α → β → γ) :
    ∀ (as : List α) (bs : List β) (j : ℕ),
      (List.zipWith f as bs)[j]? =
        match as[j]?, bs[j]? with
        | some a, some b => some (f a b)
        | _, _ => none := by
  intro as
  induction as with
  | nil =>
    intro bs j
    simp
  | cons a as ih =>
    intro bs j
    cases bs with
    | nil => simp
    | cons b bs =>
      cases j with
      | zero => simp
      | succ j =>
        simp only [List.zipWith_cons_cons, List.getElem?_cons_succ]
        exact ih bs j

theorem copyFields_spec :
    ∀ (shs2 : List (List ℕ)) (bufs : List (List NpArr)) (i : ℕ)
      (l : List NpArr) (ld : List NpArr) (t : ℕ),
      bufs.length = shs2.length →
      l.drop i = ld →
      ld.length = shs2.length →
      ((shs2.zip ld).all fun p => fieldMatchB p.1 p.2) = true →
      (∀ b ∈ bufs, t < b.length) →
      copyFields (.listV l) t i
          (shs2.map (fun sh => (sh, fun (q : ℚ) => q))) bufs =
        some (List.zipWith (fun b c => b.set t c) bufs ld) := by
  intro shs2
  induction shs2 with
  | nil =>
    intro bufs i l ld t hlen _ _ _ _
    have hb0 : bufs = [] := List.length_eq_zero.mp (by simpa using hlen)
    subst hb0
    rfl
  | cons sh shs2 ih =>
    intro bufs i l ld t hlen hdrop hldlen hall hb
    cases bufs with
    | nil => cases hlen
    | cons b bs =>
      cases ld with
      | nil => cases hldlen
      | cons c cd =>
        have hgi : l[i]? = some c := by
          have h0 : (l.drop i)[0]? = some c := by
            rw [hdrop]
            simp
          rw [List.getElem?_drop, Nat.add_zero] at h0
          exact h0
        simp only [List.zip_cons_cons, List.all_cons, Bool.and_eq_true] at hall
        simp only [List.map_cons, copyFields, pyIndex, hgi]
        rw [assignField_id sh c hall.1]
        dsimp only
        rw [npSet_nat_some b t c (hb b (List.mem_cons_self ..))]
        dsimp only
        rw [ih bs (i + 1) l cd t (by simpa using hlen)
          (by rw [← List.tail_drop, hdrop]; rfl)
          (by simpa using hldlen) hall.2
          (fun x hx => hb x (List.mem_cons_of_mem _ hx))]
        rfl

theorem copyMulti_spec (shs2 : List (List ℕ)) :
    ∀ (exs : List PyObj) (t : ℕ) (bufs : List (List NpArr)),
      bufs.length = shs2.length →
      (∀ ex ∈ exs, ∃ l, ex = .listV l ∧ l.length = shs2.length ∧
        ((shs2.zip l).all fun p => fieldMatchB p.1 p.2) = true) →
      (∀ (j : ℕ) (bj : List NpArr), bufs[j]? = some bj →
        t + exs.length ≤ bj.length) →
      ∃ bufs2,
        copyMulti (shs2.map (fun sh => (sh, fun (q : ℚ) => q))) exs t bufs =
          some bufs2 ∧
        bufs2.length = bufs.length ∧
        ∀ (j : ℕ) (bj : List NpArr), bufs[j]? = some bj →
          bufs2[j]? = some (writeSeq bj t (exs.map (cellAt j))) := by
  intro exs
  induction exs with
  | nil =>
    intro t bufs _ _ _
    exact ⟨bufs, rfl, rfl, fun j bj hj => hj⟩
  | cons ex exs ih =>
    intro t bufs hlen hm hb
    obtain ⟨l, hex, hllen, hall⟩ := hm ex (List.mem_cons_self ..)
    subst hex
    have hcf := copyFields_spec shs2 bufs 0 l l t hlen (List.drop_zero l) hllen
      hall
      (by
        intro b hbmem
        obtain ⟨j, hj⟩ := List.mem_iff_getElem?.mp hbmem
        have hx := hb j b hj
        simp only [List.length_cons] at hx
        omega)
    have hlen1 : (List.zipWith (fun b c => b.set t c) bufs l).length =
        shs2.length := by
      rw [List.length_zipWith, hlen, hllen]
      exact Nat.min_self _
    have hb1 : ∀ (j : ℕ) (bj1 : List NpArr),
        (List.zipWith (fun b c => b.set t c) bufs l)[j]? = some bj1 →
        (t + 1) + exs.length ≤ bj1.length := by
      intro j bj1 hj1
      rw [getElem?_zipWith_eq] at hj1
      cases hbj : bufs[j]? with
      | none => rw [hbj] at hj1; cases hj1
      | some bj =>
        rw [hbj] at hj1
        cases hcj : l[j]? with
        | none => rw [hcj] at hj1; cases hj1
        | some c =>
          rw [hcj] at hj1
          dsimp only at hj1
          cases hj1
          have hx := hb j bj hbj
          simp only [List.length_cons] at hx
          rw [List.length_set]
          omega
    obtain ⟨bufs2, hcm, hlen2, hspec⟩ :=
      ih (t + 1) (List.zipWith (fun b c => b.set t c) bufs l) hlen1
        (fun e he => hm e (List.mem_cons_of_mem _ he)) hb1
    refine ⟨bufs2, ?_, ?_, ?_⟩
    · simp only [copyMulti, hcf]
      exact hcm
    · rw [hlen2, hlen1, hlen]
    · intro j bj hj
      have hjlt : j < bufs.length := by
        rcases List.getElem?_eq_some.mp hj with ⟨h, _⟩
        exact h
      have hjl : j < l.length := by omega
      have hcj : l[j]? = some (l[j]) := List.getElem?_eq_getElem hjl
      have hb1j : (List.zipWith (fun b c => b.set t c) bufs l)[j]? =
          some (bj.set t (l[j])) := by
        rw [getElem?_zipWith_eq, hj, hcj]
      have hfin := hspec j _ hb1j
      simp only [List.map_cons]
      show bufs2[j]? =
        some (writeSeq (bj.set t (cellAt j (.listV l))) (t + 1)
          (exs.map (cellAt j)))
      have hcell : cellAt j (.listV l) = l[j] := by
        simp only [cellAt]
        exact List.getD_eq_getElem l (.scalar 0) hjl
      rw [hcell]
      exact hfin

theorem allocBufs_map_id (shs : List (List ℕ)) (L : ℕ) :
    allocBufs shs (shs.map (fun _ => (fun (q : ℚ) => q))) L =
      some (shs.map (fun sh => List.replicate L (zeroCell sh))) := by
  induction shs with
  | nil => rfl
  | cons sh shs ih => simp only [List.map_cons, allocBufs, ih]

theorem zip_self_map_id (shs : List (List ℕ)) :
    shs.zip (shs.map (fun _ => (fun (q : ℚ) => q))) =
      shs.map (fun sh => (sh, fun (q : ℚ) => q)) := by
  induction shs with
  | nil => rfl
  | cons sh shs ih => simp only [List.map_cons, List.zip_cons_cons, ih]

theorem exampleMatchB_single (sh : List ℕ) (ex : PyObj)
    (h : exampleMatchB [sh] ex = true) :
    ∃ a, ex = .arrV a ∧ fieldMatchB sh a = true := by
  cases ex with
  | arrV a => exact ⟨a, rfl, by simpa [exampleMatchB] using h⟩
  | listV l => simp [exampleMatchB] at h

theorem exampleMatchB_multi (s1 s2 : List ℕ) (rest : List (List ℕ))
    (ex : PyObj) (h : exampleMatchB (s1 :: s2 :: rest) ex = true) :
    ∃ l, ex = .listV l ∧ l.length = (s1 :: s2 :: rest).length ∧
      (((s1 :: s2 :: rest).zip l).all fun p => fieldMatchB p.1 p.2) = true := by
  cases ex with
  | arrV a => simp [exampleMatchB] at h
  | listV l =>
    refine ⟨l, rfl, ?_⟩
    simp only [exampleMatchB, Bool.and_eq_true, beq_iff_eq] at h
    exact h

/-- C9: materializing a finite source of examples whose field values match
the declared field shapes (with shape `(1,)` declaring a scalar field)
and whose element types match (identity dtype conversions), with the
length counted automatically, then iterating the result, yields the same
sequence of example values as the source in the same order — scalar
fields as scalars, multi-field examples as ordered per-field lists. -/
theorem c9_memory_roundtrip (data : List PyObj) (shs : List (List ℕ))
    (hmatch : data.all (exampleMatchB shs) = true) :
    (memoryDatasetBuild data shs (shs.map (fun _ => (fun (q : ℚ) => q)))
      none).map MemDataset.iter = some data := by
  have hmem : ∀ ex ∈ data, exampleMatchB shs ex = true := by
    intro ex hex
    exact List.all_eq_true.mp hmatch ex hex
  cases shs with
  | nil =>
    have hd : data = [] := by
      cases data with
      | nil => rfl
      | cons ex exs =>
        have := hmem ex (List.mem_cons_self ..)
        cases ex <;> simp [exampleMatchB] at this
    subst hd
    rfl
  | cons sh1 shs1 =>
    cases shs1 with
    | nil =>
      have hm1 : ∀ ex ∈ data, ∃ a, ex = .arrV a ∧ fieldMatchB sh1 a = true :=
        fun ex hex => exampleMatchB_single sh1 ex (hmem ex hex)
      simp only [memoryDatasetBuild, List.map_cons, List.map_nil]
      rw [show allocBufs [sh1] [fun (q : ℚ) => q] data.length =
          some [List.replicate data.length (zeroCell sh1)] from
        allocBufs_map_id [sh1] data.length]
      dsimp only
      rw [if_pos (show ([sh1] : List (List ℕ)).length = 1 from rfl)]
      rw [copySingle_spec sh1 data 0
        (List.replicate data.length (zeroCell sh1)) hm1 (by simp)]
      dsimp only
      rw [writeSeq_replicate _ _ _ (by simp)]
      simp only [List.length_map, Nat.sub_self, List.replicate_zero,
        List.append_nil]
      simp only [Option.map_some']
      rw [MemDataset.iter]
      dsimp only
      rw [if_pos (show ([sh1] : List (List ℕ)).length = 1 from rfl)]
      simp only [List.headD_cons]
      rw [map_arrV_unwrap data (fun ex hex => ⟨(hm1 ex hex).choose,
        (hm1 ex hex).choose_spec.1⟩)]
    | cons sh2 shs2 =>
      have hm2 : ∀ ex ∈ data, ∃ l, ex = .listV l ∧
          l.length = (sh1 :: sh2 :: shs2).length ∧
          (((sh1 :: sh2 :: shs2).zip l).all fun p =>
            fieldMatchB p.1 p.2) = true :=
        fun ex hex => exampleMatchB_multi sh1 sh2 shs2 ex (hmem ex hex)
      have hbufs0 : ∀ (j : ℕ) (bj : List NpArr),
          ((sh1 :: sh2 :: shs2).map
            (fun sh => List.replicate data.length (zeroCell sh)))[j]? =
            some bj →
          0 + data.length ≤ bj.length := by
        intro j bj hj
        rw [List.getElem?_map] at hj
        cases hsj : (sh1 :: sh2 :: shs2)[j]? with
        | none => rw [hsj] at hj; cases hj
        | some sj =>
          rw [hsj] at hj
          dsimp only [Option.map] at hj
          cases hj
          simp
      obtain ⟨bufs2, hcm, hlen2, hspec⟩ :=
        copyMulti_spec (sh1 :: sh2 :: shs2) data 0
          ((sh1 :: sh2 :: shs2).map
            (fun sh => List.replicate data.length (zeroCell sh)))
          (by simp) hm2 hbufs0
      simp only [memoryDatasetBuild]
      rw [allocBufs_map_id (sh1 :: sh2 :: shs2) data.length]
      dsimp only
      rw [if_neg (by simp)]
      rw [zip_self_map_id (sh1 :: sh2 :: shs2), hcm]
      dsimp only
      simp only [Option.map_some']
      rw [MemDataset.iter]
      dsimp only
      rw [if_neg (by simp)]
      apply congrArg
      apply List.ext_getElem?
      intro t
      by_cases ht : t < data.length
      · rw [List.getElem?_map, List.getElem?_range ht]
        obtain ⟨lt, hext, hltlen, hallt⟩ :=
          hm2 (data[t]) (List.getElem_mem ..)
        rw [List.getElem?_eq_getElem ht, hext]
        simp only [Option.map_some']
        apply congrArg
        apply congrArg
        apply List.ext_getElem?
        intro j
        by_cases hj : j < (sh1 :: sh2 :: shs2).length
        · have hjb : j < ((sh1 :: sh2 :: shs2).map
              (fun sh => List.replicate data.length (zeroCell sh))).length := by
            simpa using hj
          have hb0j : ((sh1 :: sh2 :: shs2).map
              (fun sh => List.replicate data.length (zeroCell sh)))[j]? =
              some (List.replicate data.length
                (zeroCell ((sh1 :: sh2 :: shs2)[j]))) := by
            rw [List.getElem?_map, List.getElem?_eq_getElem hj]
            rfl
          have hb2j := hspec j _ hb0j
          rw [writeSeq_replicate _ _ _ (by simp)] at hb2j
          simp only [List.length_map, Nat.sub_self, List.replicate_zero,
            List.append_nil] at hb2j
          rw [List.getElem?_map, hb2j]
          simp only [Option.map_some']
          have hcell : (data.map (cellAt j)).getD t (.scalar 0) =
              cellAt j (data[t]) := by
            rw [List.getD_eq_getElem _ _ (by simpa using ht)]
            exact List.getElem_map ..
          rw [hcell, hext]
          simp only [cellAt]
          have hjl : j < lt.length := by
            rw [hltlen]
            exact hj
          rw [List.getD_eq_getElem lt (.scalar 0) hjl,
            List.getElem?_eq_getElem hjl]
        · have h1 : bufs2.length ≤ j := by
            rw [hlen2]
            simpa using Nat.le_of_not_lt hj
          have h2 : lt.length ≤ j := by
            rw [hltlen]
            exact Nat.le_of_not_lt hj
          rw [List.getElem?_eq_none (by simpa using h1),
            List.getElem?_eq_none h2]
      · rw [List.getElem?_eq_none (by simpa using Nat.le_of_not_lt ht),
          List.getElem?_eq_none (Nat.le_of_not_lt ht)]

/-- C9 witness: a two-example, two-field dataset (a scalar field and a
shape-`(2,)` field) round-trips through the materializer. -/
theorem c9_memory_roundtrip_witness :
    (memoryDatasetBuild
      [.listV [.scalar 7, .tensor [2] [1, 2]],
       .listV [.scalar 8, .tensor [2] [3, 4]]]
      [[1], [2]]
      (([[1], [2]] : List (List ℕ)).map (fun _ => (fun (q : ℚ) => q)))
      none).map MemDataset.iter =
      some [.listV [.scalar 7, .tensor [2] [1, 2]],
            .listV [.scalar 8, .tensor [2] [3, 4]]] :=
  c9_memory_roundtrip
    [.listV [.scalar 7, .tensor [2] [1, 2]],
     .listV [.scalar 8, .tensor [2] [3, 4]]]
    [[1], [2]] (by decide)
